import Mathlib

/-!
Verification development for the JsLeaksScan repository: a shallow Lean
embedding of the rule-compilation and matching engine
(`internal/rules/rules.go`, `internal/scan/common.go`,
`internal/scan/local.go`, `internal/scan/url.go`, `main.go`) together with
theorems settling the stated properties of that code.

Modelling conventions:
* Go byte strings (`[]byte`, `string` used as bytes) are `Str := List Nat`,
  one entry per byte; `len` is `List.length` (Go `len` counts bytes).
* The Go standard-library regexp engine is external to the repository; a
  compiled `*regexp.Regexp` is abstracted as its `FindAll _ -1` behaviour,
  a function `Str → List Str`, and `regexp.Compile` as a parameter
  `compile : Str → Option Matcher` (`none` = compilation error).
* Go maps (`map[string]string`, `map[string]*regexp.Regexp`) are
  association lists with pairwise-distinct keys; iteration order over a Go
  map is unspecified, so order-sensitive statements quantify over
  permutations of the list where it matters.
* The concurrent collector of `processRegexRulesConcurrently` (one
  goroutine per rule sending its admitted matches, in order, to a shared
  channel that is drained until closed after `wg.Wait()`) is modelled by
  the relation `Collect`: the received list is an interleaving of the
  per-rule result queues that consumes every queue completely.
-/

/-- A Go byte string: one `Nat` per byte. -/
abbrev Str := List Nat

/-- The observable behaviour of a compiled `*regexp.Regexp`:
`fun content => reg.FindAll(content, -1)`. -/
abbrev Matcher := Str → List Str

/-- `ScanResult` from `internal/scan/common.go` lines 16-20. -/
structure ScanResult where
  Source : Str
  Rule : Str
  Match : Str
deriving DecidableEq, Repr

/-- `CompiledRules` from `internal/rules/rules.go` lines 11-14; the two Go
maps are association lists. -/
structure CompiledRules where
  Regex : List (Str × Matcher)
  Literal : List (Str × Str)

/-- The bytes of the Go string literal `".+*?()|[]{}^$"` used by
`isLiteralPattern` (`rules.go` line 34). -/
def metaChars : Str := [46, 43, 42, 63, 40, 41, 124, 91, 93, 123, 125, 94, 36]

/-- `isLiteralPattern` (`rules.go` lines 31-35):
`!strings.ContainsAny(pattern, ".+*?()|[]{}^$") && !strings.Contains(pattern, "\\")`.
All the characters involved are ASCII, so the rune-level test of
`strings.ContainsAny` coincides with this byte-level test (no UTF-8
continuation byte equals an ASCII code point). Backslash is byte 92. -/
def isLiteralPattern (pattern : Str) : Bool :=
  !(pattern.any (fun c => metaChars.contains c)) && !(pattern.contains 92)

/-- The per-entry loop of `CompileRules` (`rules.go` lines 49-70), over the
rule map already decoded by `JsonToMap` (the only error return of the Go
function is the JSON-decode failure, before this loop; the loop itself
never fails).  `compile` abstracts `regexp.Compile`. -/
def CompileRules (compile : Str → Option Matcher) : List (Str × Str) → CompiledRules
  | [] => ⟨[], []⟩
  | (name, pattern) :: rest =>
    let compiled := CompileRules compile rest
    if pattern = [] then
      compiled
    else if isLiteralPattern pattern then
      ⟨compiled.Regex, (name, pattern) :: compiled.Literal⟩
    else
      match compile pattern with
      | none => ⟨compiled.Regex, (name, pattern) :: compiled.Literal⟩
      | some reg => ⟨(name, reg) :: compiled.Regex, compiled.Literal⟩

/-- Go map indexing `m[k]` on the association-list model. -/
def mapGet (n : Str) : List (Str × α) → Option α
  | [] => none
  | (k, v) :: rest => if k = n then some v else mapGet n rest

/-- `processLiteralRules` (`common.go` lines 94-112): for each literal rule,
`bytes.Contains(content, pattern)` (substring containment, `<:+:`) emits a
single `ScanResult` whose `Match` is the pattern itself.  The buffer-pool
plumbing of the source is performance-only and has no observable effect. -/
def processLiteralRules (source content : Str) (literalRules : List (Str × Str)) :
    List ScanResult :=
  literalRules.filterMap (fun np =>
    if np.2 <:+: content then some ⟨source, np.1, np.2⟩ else none)

/-- The admission filter in the `for _, match := range matches` loops of
`processRegexRulesSerially` (`common.go` lines 125-134) and
`processRegexRulesConcurrently` (lines 150-159):
`if len(match) > 0 && len(match) < 1024 { append ... }`. -/
def admitMatches (source ruleName : Str) (found : List Str) : List ScanResult :=
  found.filterMap (fun m =>
    if 0 < m.length ∧ m.length < 1024 then some ⟨source, ruleName, m⟩ else none)

/-- `processRegexRulesSerially` (`common.go` lines 115-137). -/
def processRegexRulesSerially (source content : Str)
    (regexRules : List (Str × Matcher)) : List ScanResult :=
  regexRules.flatMap (fun nr => admitMatches source nr.1 (nr.2 content))

/-- Channel-collection semantics: `Collect qs out` holds when `out` is a
possible drain of a channel fed by one sender per queue in `qs`, each
sender emitting its queue in order, the channel being closed only after
every sender finished (`wg.Wait(); close(resultChan)`).  A step receives
the head of some queue; the drain ends only when every queue is empty. -/
inductive Collect {α : Type} : List (List α) → List α → Prop
  | nil (qs : List (List α)) (h : ∀ q ∈ qs, q = []) : Collect qs []
  | cons (qs : List (List α)) (i : Nat) (x : α) (t : List α) (out : List α)
      (hget : qs.get? i = some (x :: t)) (hrest : Collect (qs.set i t) out) :
      Collect qs (x :: out)

/-- `processRegexRulesConcurrently` (`common.go` lines 140-176) as a
relation: `out` is any list the collecting loop can produce.  Each
goroutine's queue is the rule's admitted matches in `FindAll` order. -/
def processRegexRulesConcurrently (source content : Str)
    (regexRules : List (Str × Matcher)) (out : List ScanResult) : Prop :=
  Collect (regexRules.map (fun nr => admitMatches source nr.1 (nr.2 content))) out

/-- The strategy guard of `processContent` (`common.go` line 82):
`useConcurrency && len(content) > 1024*1024 && len(compiledRules.Regex) > 5`. -/
def shouldBeConcurrent (useConcurrency : Bool) (content : Str)
    (regexRules : List (Str × Matcher)) : Bool :=
  useConcurrency && decide (content.length > 1024 * 1024) &&
    decide (regexRules.length > 5)

/-- The deterministic (serial) branch of `processContent`
(`common.go` lines 76-77 and 86-90): literal results followed by the
serially computed regex results. -/
def processContentSerial (source content : Str) (cr : CompiledRules) :
    List ScanResult :=
  processLiteralRules source content cr.Literal ++
    processRegexRulesSerially source content cr.Regex

/-- Which branch of the `if shouldBeConcurrent` in `processContent` ran. -/
inductive Strategy where
  | serial
  | parallel
deriving DecidableEq, Repr

/-- `processContent` (`common.go` lines 72-91) as a relation of its possible
outputs, tagged with the strategy chosen by line 82's guard. -/
inductive ProcessContent (source content : Str) (cr : CompiledRules)
    (useConcurrency : Bool) : Strategy → List ScanResult → Prop
  | serial (h : shouldBeConcurrent useConcurrency content cr.Regex = false) :
      ProcessContent source content cr useConcurrency .serial
        (processContentSerial source content cr)
  | concurrent (out : List ScanResult)
      (h : shouldBeConcurrent useConcurrency content cr.Regex = true)
      (hc : processRegexRulesConcurrently source content cr.Regex out) :
      ProcessContent source content cr useConcurrency .parallel
        (processLiteralRules source content cr.Literal ++ out)

/-- The line `fmt.Fprintf(buf, "[%s] %s: %s\n", result.Source, result.Rule,
result.Match)` of `WriteResultsToFile` (`common.go` line 51), at byte level:
91 `[`, 93 `]`, 32 space, 58 `:`, 10 newline. -/
def formatResult (r : ScanResult) : Str :=
  (91 :: r.Source) ++ (93 :: 32 :: r.Rule) ++ (58 :: 32 :: r.Match) ++ [10]

/-- `WriteResultsToFile` (`common.go` lines 26-67) acting on the state of
the target file, modelled as `Option Str` (`none` = file absent).  With no
results it returns `nil` before touching the file; otherwise it opens with
`O_CREATE|O_WRONLY|O_APPEND` (creating an empty file if absent) and appends
the formatted lines.  The mutex, size estimation and `bufio` buffering are
performance/concurrency plumbing with no effect on the final byte content;
OS-level open/write/flush failures are outside the model. -/
def WriteResultsToFile (file : Option Str) (results : List ScanResult) :
    Option Str :=
  if results.length = 0 then file
  else some (file.getD [] ++ results.flatMap formatResult)

/-- The rune filter inside `strings.Map` in `SanitizeFilename`
(`utils.go` lines 32-39): letters, digits, `_`, `-`, `.` are kept. -/
def allowedChar (r : Char) : Bool :=
  ('a' ≤ r && r ≤ 'z') || ('A' ≤ r && r ≤ 'Z') || ('0' ≤ r && r ≤ '9') ||
    r = '_' || r = '-' || r = '.'

/-- The `strings.Map` call of `SanitizeFilename` (`utils.go` lines 32-39):
every disallowed rune becomes `'_'`. -/
def sanitizeMap (base : List Char) : List Char :=
  base.map (fun r => if allowedChar r then r else '_')

/-- Lines 47-50 of `utils.go`: a leading `'.'` or `'_'` gets the prefix
`"file_"`. -/
def fixLeading : List Char → List Char
  | [] => []
  | c :: rest =>
    if c = '.' || c = '_' then 'f' :: 'i' :: 'l' :: 'e' :: '_' :: (c :: rest)
    else c :: rest

/-- Lines 42-45 of `utils.go`: truncate to 200 bytes.  After `sanitizeMap`
every rune is ASCII (`'_'` or an allowed character), so Go's byte-counting
`len(sanitized) > 200` / `sanitized[:200]` is exactly `List.take 200`. -/
def truncate200 (s : List Char) : List Char :=
  if s.length > 200 then s.take 200 else s

/-- The fallback name of `utils.go` lines 52-55. -/
def defaultFilename : List Char :=
  ['d', 'e', 'f', 'a', 'u', 'l', 't', '_', 'f', 'i', 'l', 'e', 'n', 'a', 'm', 'e']

/-- `SanitizeFilename` (`utils.go` lines 19-58) from the `strings.Map` step
on.  The URL-parse / `filepath.Base` preprocessing of lines 20-29 only picks
the string fed into `strings.Map`, so it is abstracted as the arbitrary
input `base` (the theorems hold for every possible preprocessing output). -/
def SanitizeFilename (base : List Char) : List Char :=
  if fixLeading (truncate200 (sanitizeMap base)) = [] then defaultFilename
  else fixLeading (truncate200 (sanitizeMap base))

/-- Go's `filepath.Ext`: scan from the end; stop at a path separator; return
the suffix from the last `'.'` (inclusive), or the empty string.  `rev` is
the yet-unscanned part in reverse, `acc` the scanned tail in original
order. -/
def extAux : List Char → List Char → List Char
  | [], _ => []
  | c :: rest, acc =>
    if c = '/' then []
    else if c = '.' then c :: acc
    else extAux rest (c :: acc)

/-- `filepath.Ext(path)` (Unix separator). -/
def filepathExt (s : List Char) : List Char := extAux s.reverse []

/-- `GetOutputFilePath` (`common.go` lines 179-186): sanitize, add `".txt"`
when `filepath.Ext` is empty, join with the output directory.
`filepath.Join(dir, name)` is modelled as `dir ++ "/" ++ name` (the `Clean`
normalisation inside `Join` does not affect the appended file name, which
is the object of the claims). -/
def GetOutputFilePath (outputDir base : List Char) : List Char :=
  let sanitized := SanitizeFilename base
  let named := if filepathExt sanitized = [] then
      sanitized ++ ['.', 't', 'x', 't']
    else sanitized
  outputDir ++ '/' :: named

/-- The kinds of per-target / per-write errors the scan loops print and
swallow (`local.go` lines 107-138, `url.go` lines 153-221). -/
inductive TargetError where
  | readError
  | fetchError
  | badStatus
  | writeError
deriving DecidableEq, Repr

/-- One local scan target: its path, the outcome of `os.ReadFile`
(`none` = read error), and whether the `WriteResultsToFile` call would
succeed if attempted. -/
structure LocalTarget where
  path : Str
  readResult : Option Str
  writeOk : Bool

/-- `processLocalFile` (`local.go` lines 107-138): read failure → print and
return; empty content → skip; otherwise match and, when results exist,
write (a write failure is printed and swallowed).  The function's Go return
type is `void`: every error goes to the log, never to the caller.  The
returned `Option TargetError` is the printed diagnostic.  The result list
is evaluated serially; by the strategy-equivalence theorem below the
result multiset (hence `len(results) > 0`) is the same under the
concurrent strategy `processContent` may choose. -/
def processLocalFile (t : LocalTarget) (cr : CompiledRules) : Option TargetError :=
  match t.readResult with
  | none => some .readError
  | some content =>
    if content.length = 0 then none
    else
      let results := processContentSerial t.path content cr
      if results.length > 0 then
        if t.writeOk then none else some .writeError
      else none

/-- `ScanLocalDirectory` (`local.go` lines 17-104): returns an error only
when the directory does not exist (line 22-24); the worker pool runs
`processLocalFile` for every queued target, whose outcome is printed and
discarded, and the function then returns `nil` (line 103).  First component:
the per-target diagnostics printed during the run; second: the Go error
return. -/
def ScanLocalDirectory (dirExists : Bool) (targets : List LocalTarget)
    (cr : CompiledRules) : List TargetError × Except String Unit :=
  if dirExists then
    (targets.filterMap (fun t => processLocalFile t cr), Except.ok ())
  else
    ([], Except.error "directory does not exist")

/-- One URL scan target: the URL, the outcome of the HTTP exchange
(`none` = request failed even after the HTTP fallback; `some (status,
body)` otherwise, the body already capped at 10 MiB), and whether the
write would succeed. -/
structure URLTarget where
  url : Str
  fetchResult : Option (Nat × Str)
  writeOk : Bool

/-- `processURL` (`url.go` lines 114-225): request failure → print and
return; status outside `[200, 300)` → return; empty body → return;
otherwise match (with `useConcurrency = false`, i.e. exactly the serial
evaluation, `url.go` line 210) and write, a write failure being printed
and swallowed.  Go return type is `void`. -/
def processURL (t : URLTarget) (cr : CompiledRules) : Option TargetError :=
  match t.fetchResult with
  | none => some .fetchError
  | some (status, body) =>
    if status < 200 ∨ status ≥ 300 then some .badStatus
    else if body.length = 0 then none
    else
      let results := processContentSerial t.url body cr
      if results.length > 0 then
        if t.writeOk then none else some .writeError
      else none

/-- `ScanURLs` (`url.go` lines 20-92): returns an error only when the HTTP
client cannot be built or the URL list file cannot be read; every
dispatched `processURL` outcome is printed and discarded and the function
returns `nil` (line 91).  `urlList = none` models the unreadable list
file. -/
def ScanURLs (clientOk : Bool) (urlList : Option (List URLTarget))
    (cr : CompiledRules) : List TargetError × Except String Unit :=
  if clientOk then
    match urlList with
    | none => ([], Except.error "failed to read URL file")
    | some ts => (ts.filterMap (fun t => processURL t cr), Except.ok ())
  else
    ([], Except.error "failed to create HTTP client")

/-- The exit-status logic of `main` (`main.go` lines 88-114): `scanErr` is
the error returned by the scan function; `os.Exit(1)` exactly when it is
non-nil. -/
def mainExitCode (scanResult : Except String Unit) : Nat :=
  match scanResult with
  | Except.error _ => 1
  | Except.ok _ => 0

/-- End-to-end exit code of a local-scan run. -/
def localScanExitCode (dirExists : Bool) (targets : List LocalTarget)
    (cr : CompiledRules) : Nat :=
  mainExitCode (ScanLocalDirectory dirExists targets cr).2

/-- End-to-end exit code of a URL-scan run. -/
def urlScanExitCode (clientOk : Bool) (urlList : Option (List URLTarget))
    (cr : CompiledRules) : Nat :=
  mainExitCode (ScanURLs clientOk urlList cr).2

/-! ### Helper lemmas -/

theorem flatten_set_perm {α : Type} (qs : List (List α)) :
    ∀ (i : Nat) (x : α) (t : List α),
      qs.get? i = some (x :: t) → qs.flatten.Perm (x :: (qs.set i t).flatten) := by
  induction qs with
  | nil => intro i x t h; simp at h
  | cons q rest ih =>
    intro i x t h
    cases i with
    | zero =>
      simp only [List.get?] at h
      injection h with h
      subst h
      simp
    | succ i =>
      simp only [List.get?] at h
      have hr := ih i x t h
      simp only [List.set, List.flatten_cons]
      exact (hr.append_left q).trans List.perm_middle

/-- Every list the channel drain can produce is a permutation of the
concatenation of the per-sender queues. -/
theorem collect_perm_flatten {α : Type} {qs : List (List α)} {out : List α}
    (h : Collect qs out) : out.Perm qs.flatten := by
  induction h with
  | nil qs h =>
    have hq : qs.flatten = [] := List.flatten_eq_nil_iff.mpr h
    simp [hq]
  | cons qs i x t out hget hrest ih =>
    exact (ih.cons x).trans (flatten_set_perm qs i x t hget).symm

theorem collect_cons_nil {α : Type} {qs : List (List α)} {out : List α}
    (h : Collect qs out) : Collect ([] :: qs) out := by
  induction h with
  | nil qs hq => exact Collect.nil ([] :: qs) (by simpa using hq)
  | cons qs i x t out hget hrest ih =>
    exact Collect.cons ([] :: qs) (i + 1) x t out (by simpa using hget) ih

/-- The fully serial drain (take queue 0 to exhaustion, then queue 1, ...)
is always a possible `Collect` outcome. -/
theorem collect_flatten {α : Type} : ∀ qs : List (List α), Collect qs qs.flatten := by
  intro qs
  induction qs with
  | nil => exact Collect.nil [] (by simp)
  | cons q rest ih =>
    induction q with
    | nil =>
      simp only [List.flatten_cons, List.nil_append]
      exact collect_cons_nil ih
    | cons a q ihq =>
      simp only [List.flatten_cons, List.cons_append]
      exact Collect.cons ((a :: q) :: rest) 0 a q (q ++ rest.flatten) rfl
        (by simpa using ihq)

theorem mem_admitMatches {source ruleName : Str} {found : List Str} {r : ScanResult} :
    r ∈ admitMatches source ruleName found ↔
      ∃ m ∈ found, r = ⟨source, ruleName, m⟩ ∧ 0 < m.length ∧ m.length < 1024 := by
  simp only [admitMatches, List.mem_filterMap]
  constructor
  · rintro ⟨m, hm, hf⟩
    by_cases hc : 0 < m.length ∧ m.length < 1024
    · simp only [hc, if_pos] at hf
      injection hf with hf
      exact ⟨m, hm, hf.symm, hc⟩
    · simp [hc] at hf
  · rintro ⟨m, hm, hr, hc⟩
    exact ⟨m, hm, by simp [hc, hr]⟩

theorem mem_processRegexRulesSerially {source content : Str}
    {regexRules : List (Str × Matcher)} {r : ScanResult} :
    r ∈ processRegexRulesSerially source content regexRules ↔
      ∃ nr ∈ regexRules, r ∈ admitMatches source nr.1 (nr.2 content) := by
  simp [processRegexRulesSerially, List.mem_flatMap]

theorem mem_processLiteralRules {source content : Str}
    {literalRules : List (Str × Str)} {r : ScanResult} :
    r ∈ processLiteralRules source content literalRules ↔
      ∃ np ∈ literalRules, r = ⟨source, np.1, np.2⟩ ∧ np.2 <:+: content := by
  simp only [processLiteralRules, List.mem_filterMap]
  constructor
  · rintro ⟨np, hnp, hf⟩
    by_cases hc : np.2 <:+: content
    · simp only [hc, if_pos] at hf
      injection hf with hf
      exact ⟨np, hnp, hf.symm, hc⟩
    · simp [hc] at hf
  · rintro ⟨np, hnp, hr, hc⟩
    exact ⟨np, hnp, by simp [hc, hr]⟩

theorem mapGet_eq_none_iff {α : Type} (n : Str) (l : List (Str × α)) :
    mapGet n l = none ↔ n ∉ l.map Prod.fst := by
  induction l with
  | nil => simp [mapGet]
  | cons kv rest ih =>
    obtain ⟨k, v⟩ := kv
    by_cases hk : k = n
    · subst hk; simp [mapGet]
    · simp [mapGet, hk, ih, Ne.symm hk]

theorem mem_of_mapGet_eq_some {α : Type} {n : Str} {l : List (Str × α)} {v : α}
    (h : mapGet n l = some v) : (n, v) ∈ l := by
  induction l with
  | nil => simp [mapGet] at h
  | cons kv rest ih =>
    obtain ⟨k, w⟩ := kv
    by_cases hk : k = n
    · subst hk
      simp only [mapGet, if_pos rfl] at h
      injection h with h
      simp [h]
    · simp only [mapGet, if_neg hk] at h
      exact List.mem_cons_of_mem _ (ih h)

/-- A name absent from the rule map is absent from both compiled partitions. -/
theorem compileRules_mapGet_of_not_mem {compile : Str → Option Matcher}
    {rm : List (Str × Str)} {n : Str} (h : n ∉ rm.map Prod.fst) :
    mapGet n (CompileRules compile rm).Literal = none ∧
    mapGet n (CompileRules compile rm).Regex = none := by
  induction rm with
  | nil => simp [CompileRules, mapGet]
  | cons kv rest ih =>
    obtain ⟨k, q⟩ := kv
    simp only [List.map_cons, List.mem_cons, not_or] at h
    obtain ⟨hk, hrest⟩ := h
    have ihh := ih hrest
    by_cases hq : q = []
    · simpa [CompileRules, hq] using ihh
    · by_cases hl : isLiteralPattern q
      · simpa [CompileRules, hq, hl, mapGet, Ne.symm hk] using ihh
      · cases hc : compile q with
        | none => simpa [CompileRules, hq, hl, hc, mapGet, Ne.symm hk] using ihh
        | some reg => simpa [CompileRules, hq, hl, hc, mapGet, Ne.symm hk] using ihh

/-- A non-empty pattern that is syntactically literal, or whose compilation
fails, ends up in the literal partition under its own name and not in the
regex partition. -/
theorem compileRules_literal_get {compile : Str → Option Matcher}
    {rm : List (Str × Str)} {n p : Str}
    (hnd : (rm.map Prod.fst).Nodup) (hmem : (n, p) ∈ rm) (hne : p ≠ [])
    (hdest : isLiteralPattern p = true ∨ compile p = none) :
    mapGet n (CompileRules compile rm).Literal = some p ∧
    mapGet n (CompileRules compile rm).Regex = none := by
  induction rm with
  | nil => simp at hmem
  | cons kv rest ih =>
    obtain ⟨k, q⟩ := kv
    simp only [List.map_cons, List.nodup_cons] at hnd
    obtain ⟨hk, hnd'⟩ := hnd
    rcases List.mem_cons.mp hmem with heq | hmem'
    · injection heq with h1 h2
      subst h1
      subst h2
      have hrest := @compileRules_mapGet_of_not_mem compile rest n hk
      rcases hdest with hl | hc
      · simp [CompileRules, hne, hl, mapGet, hrest.2]
      · by_cases hl : isLiteralPattern p
        · simp [CompileRules, hne, hl, mapGet, hrest.2]
        · simp [CompileRules, hne, hl, hc, mapGet, hrest.2]
    · have hkn : k ≠ n := by
        intro hkn
        subst hkn
        exact hk (List.mem_map.mpr ⟨(k, p), hmem', rfl⟩)
      have ihh := ih hnd' hmem'
      by_cases hq : q = []
      · simpa [CompileRules, hq] using ihh
      · by_cases hl : isLiteralPattern q
        · simpa [CompileRules, hq, hl, mapGet, hkn] using ihh
        · cases hc : compile q with
          | none => simpa [CompileRules, hq, hl, hc, mapGet, hkn] using ihh
          | some reg => simpa [CompileRules, hq, hl, hc, mapGet, hkn] using ihh

/-- An empty-pattern entry of the rule map lands in neither partition. -/
theorem compileRules_mapGet_of_empty {compile : Str → Option Matcher}
    {rm : List (Str × Str)} {n : Str}
    (hnd : (rm.map Prod.fst).Nodup) (hmem : (n, ([] : Str)) ∈ rm) :
    mapGet n (CompileRules compile rm).Literal = none ∧
    mapGet n (CompileRules compile rm).Regex = none := by
  induction rm with
  | nil => simp at hmem
  | cons kv rest ih =>
    obtain ⟨k, q⟩ := kv
    simp only [List.map_cons, List.nodup_cons] at hnd
    obtain ⟨hk, hnd'⟩ := hnd
    rcases List.mem_cons.mp hmem with heq | hmem'
    · injection heq with h1 h2
      subst h1
      subst h2
      simpa [CompileRules] using @compileRules_mapGet_of_not_mem compile rest n hk
    · have hkn : k ≠ n := by
        intro hkn
        subst hkn
        exact hk (List.mem_map.mpr ⟨(k, []), hmem', rfl⟩)
      have ihh := ih hnd' hmem'
      by_cases hq : q = []
      · simpa [CompileRules, hq] using ihh
      · by_cases hl : isLiteralPattern q
        · simpa [CompileRules, hq, hl, mapGet, hkn] using ihh
        · cases hc : compile q with
          | none => simpa [CompileRules, hq, hl, hc, mapGet, hkn] using ihh
          | some reg => simpa [CompileRules, hq, hl, hc, mapGet, hkn] using ihh

/-- Every rule-map entry with a non-empty pattern goes to exactly one of the
two partitions, so the two reported counts sum to the number of non-empty
entries. -/
theorem compileRules_counts (compile : Str → Option Matcher)
    (rm : List (Str × Str)) :
    (CompileRules compile rm).Regex.length + (CompileRules compile rm).Literal.length
      = rm.countP (fun e => !e.2.isEmpty) := by
  induction rm with
  | nil => simp [CompileRules]
  | cons kv rest ih =>
    obtain ⟨k, q⟩ := kv
    by_cases hq : q = []
    · simpa [CompileRules, hq, List.countP_cons] using ih
    · have hq' : q.isEmpty = false := by
        cases q with
        | nil => exact absurd rfl hq
        | cons a l => rfl
      by_cases hl : isLiteralPattern q
      · simp only [CompileRules, if_neg hq, if_pos hl, List.countP_cons, hq',
          Bool.not_false, if_true, List.length_cons]
        omega
      · cases hc : compile q with
        | none =>
          simp only [CompileRules, if_neg hq, if_neg hl, hc, List.countP_cons, hq',
            Bool.not_false, if_true, List.length_cons]
          omega
        | some reg =>
          simp only [CompileRules, if_neg hq, if_neg hl, hc, List.countP_cons, hq',
            Bool.not_false, if_true, List.length_cons]
          omega

/-- Anything a concurrent drain can contain is among the serial results. -/
theorem concurrent_mem_serial {source content : Str}
    {regexRules : List (Str × Matcher)} {out : List ScanResult} {r : ScanResult}
    (hc : processRegexRulesConcurrently source content regexRules out)
    (hr : r ∈ out) :
    r ∈ processRegexRulesSerially source content regexRules := by
  have hperm := collect_perm_flatten hc
  have hm := hperm.mem_iff.mp hr
  rw [processRegexRulesSerially, List.flatMap_def]
  exact hm

theorem rule_name_of_mem_literal {source content : Str}
    {literalRules : List (Str × Str)} {r : ScanResult}
    (h : r ∈ processLiteralRules source content literalRules) :
    r.Rule ∈ literalRules.map Prod.fst := by
  obtain ⟨np, hnp, heq, _⟩ := mem_processLiteralRules.mp h
  subst heq
  exact List.mem_map.mpr ⟨np, hnp, rfl⟩

theorem rule_name_of_mem_serial {source content : Str}
    {regexRules : List (Str × Matcher)} {r : ScanResult}
    (h : r ∈ processRegexRulesSerially source content regexRules) :
    r.Rule ∈ regexRules.map Prod.fst := by
  obtain ⟨nr, hnr, hm⟩ := mem_processRegexRulesSerially.mp h
  obtain ⟨m, _, heq, _⟩ := mem_admitMatches.mp hm
  subst heq
  exact List.mem_map.mpr ⟨nr, hnr, rfl⟩

/-- Every result `processContent` can emit carries the name of some rule of
one of the two partitions. -/
theorem rule_name_of_mem_processContent {source content : Str}
    {cr : CompiledRules} {u : Bool} {s : Strategy} {out : List ScanResult}
    {r : ScanResult} (h : ProcessContent source content cr u s out)
    (hr : r ∈ out) :
    r.Rule ∈ cr.Literal.map Prod.fst ∨ r.Rule ∈ cr.Regex.map Prod.fst := by
  cases h with
  | serial hs =>
    rcases List.mem_append.mp hr with h1 | h2
    · exact Or.inl (rule_name_of_mem_literal h1)
    · exact Or.inr (rule_name_of_mem_serial h2)
  | concurrent out' hs hc =>
    rcases List.mem_append.mp hr with h1 | h2
    · exact Or.inl (rule_name_of_mem_literal h1)
    · exact Or.inr (rule_name_of_mem_serial (concurrent_mem_serial hc h2))

/-- Literal rules whose name is not in the map contribute no result. -/
theorem countP_literal_notin (source content : Str)
    (literalRules : List (Str × Str)) (n : Str)
    (h : n ∉ literalRules.map Prod.fst) :
    (processLiteralRules source content literalRules).countP
      (fun r => r.Rule == n) = 0 := by
  rw [List.countP_eq_zero]
  intro r hr
  simp only [beq_iff_eq]
  intro hrn
  exact h (hrn ▸ rule_name_of_mem_literal hr)

/-! ### Claim theorems -/

/-- C1: for every source identifier, content blob and set of pattern rules
(in any map-iteration order), every output the parallel strategy
(`processRegexRulesConcurrently`) can produce is a permutation of — i.e.
the same multiset as — the serial strategy's output
(`processRegexRulesSerially`); the strategy choice never changes which
matches are produced. -/
theorem serial_concurrent_same_results (source content : Str)
    (regexRules regexRules' : List (Str × Matcher)) (out : List ScanResult)
    (hperm : regexRules'.Perm regexRules)
    (h : processRegexRulesConcurrently source content regexRules' out) :
    out.Perm (processRegexRulesSerially source content regexRules) := by
  have h1 := collect_perm_flatten h
  have h2 := (hperm.map (fun nr => admitMatches source nr.1 (nr.2 content))).flatten
  rw [processRegexRulesSerially, List.flatMap_def]
  exact h1.trans h2

theorem serial_concurrent_same_results_witness :
    ([⟨[], [2], [7]⟩, ⟨[], [1], [5]⟩, ⟨[], [1], [6]⟩] : List ScanResult).Perm
      (processRegexRulesSerially [] []
        [([1], fun _ => [[5], [6]]), ([2], fun _ => [[7]])]) :=
  serial_concurrent_same_results [] []
    [([1], fun _ => [[5], [6]]), ([2], fun _ => [[7]])]
    [([1], fun _ => [[5], [6]]), ([2], fun _ => [[7]])]
    [⟨[], [2], [7]⟩, ⟨[], [1], [5]⟩, ⟨[], [1], [6]⟩]
    (List.Perm.refl _)
    (show Collect _ _ from
      Collect.cons _ 1 ⟨[], [2], [7]⟩ [] _ (by decide)
        (Collect.cons _ 0 ⟨[], [1], [5]⟩ [⟨[], [1], [6]⟩] _ (by decide)
          (Collect.cons _ 0 ⟨[], [1], [6]⟩ [] _ (by decide)
            (Collect.nil _ (by decide)))))

/-- C6: under either strategy, every admitted regex match has byte length
strictly between 0 and 1024; matches of length 0 or ≥ 1024 are dropped. -/
theorem regex_match_length_bounds (source content : Str)
    (regexRules : List (Str × Matcher)) (res : ScanResult)
    (h : res ∈ processRegexRulesSerially source content regexRules ∨
      ∃ out, processRegexRulesConcurrently source content regexRules out ∧
        res ∈ out) :
    0 < res.Match.length ∧ res.Match.length < 1024 := by
  have hs : res ∈ processRegexRulesSerially source content regexRules := by
    rcases h with h | ⟨out, hc, hm⟩
    · exact h
    · exact concurrent_mem_serial hc hm
  obtain ⟨nr, _, hm⟩ := mem_processRegexRulesSerially.mp hs
  obtain ⟨m, _, heq, hlen⟩ := mem_admitMatches.mp hm
  subst heq
  exact hlen

theorem regex_match_length_bounds_witness :
    0 < (ScanResult.mk [] [1] [5]).Match.length ∧
      (ScanResult.mk [] [1] [5]).Match.length < 1024 :=
  regex_match_length_bounds [] [] [([1], fun _ => [[5]])] ⟨[], [1], [5]⟩
    (Or.inl (by decide))

/-- C7: in any run of `processContent`, the parallel strategy is chosen if
and only if `useConcurrency` is true, the content is longer than
1 MiB = 1024*1024 bytes, and there are more than 5 regex rules; otherwise
the rules are evaluated serially. -/
theorem parallel_strategy_iff (source content : Str) (cr : CompiledRules)
    (u : Bool) (s : Strategy) (out : List ScanResult)
    (h : ProcessContent source content cr u s out) :
    s = Strategy.parallel ↔
      (u = true ∧ content.length > 1024 * 1024 ∧ cr.Regex.length > 5) := by
  cases h with
  | serial hs =>
    constructor
    · intro hcontra
      exact absurd hcontra (by simp)
    · rintro ⟨hu, hc, hr⟩
      simp [shouldBeConcurrent, hu, hc, hr] at hs
  | concurrent out' hs hc =>
    simp only [shouldBeConcurrent, Bool.and_eq_true, decide_eq_true_eq] at hs
    simp [hs.1.1, hs.1.2, hs.2]

theorem parallel_strategy_iff_witness :
    Strategy.serial = Strategy.parallel ↔
      (true = true ∧ ([] : Str).length > 1024 * 1024 ∧
        (CompiledRules.mk [] []).Regex.length > 5) :=
  parallel_strategy_iff [] [] ⟨[], []⟩ true Strategy.serial
    (processContentSerial [] [] ⟨[], []⟩)
    (ProcessContent.serial (by decide))

/-- C2: a non-empty pattern is classified literal iff it contains none of
the bytes of `. + * ? ( ) | [ ] { } ^ $` (46 43 42 63 40 41 124 91 93 123
125 94 36) and no backslash (92); a literal pattern goes to the literal
partition, and any other non-empty pattern becomes a regex rule when it
compiles and is demoted to the literal partition when it does not. -/
theorem literal_classification (compile : Str → Option Matcher) (n p : Str)
    (hne : p ≠ []) :
    (isLiteralPattern p = true ↔
      ((∀ c ∈ p,
          c ∉ ([46, 43, 42, 63, 40, 41, 124, 91, 93, 123, 125, 94, 36] : List Nat)) ∧
        92 ∉ p)) ∧
    (isLiteralPattern p = true →
      CompileRules compile [(n, p)] = ⟨[], [(n, p)]⟩) ∧
    (isLiteralPattern p = false → compile p = none →
      CompileRules compile [(n, p)] = ⟨[], [(n, p)]⟩) ∧
    (∀ reg, isLiteralPattern p = false → compile p = some reg →
      CompileRules compile [(n, p)] = ⟨[(n, reg)], []⟩) := by
  refine ⟨?_, ?_, ?_, ?_⟩
  · constructor
    · intro h
      simp only [isLiteralPattern, Bool.and_eq_true, Bool.not_eq_true',
        List.any_eq_false] at h
      obtain ⟨h1, h2⟩ := h
      refine ⟨fun c hc => ?_, ?_⟩
      · simpa [metaChars] using h1 c hc
      · simpa using h2
    · rintro ⟨h1, h2⟩
      simp only [isLiteralPattern, Bool.and_eq_true, Bool.not_eq_true',
        List.any_eq_false]
      refine ⟨fun c hc => ?_, ?_⟩
      · simpa [metaChars] using h1 c hc
      · simpa using h2
  · intro hl
    simp [CompileRules, hne, hl]
  · intro hl hc
    simp [CompileRules, hne, hl, hc]
  · intro reg hl hc
    simp [CompileRules, hne, hl, hc]

theorem literal_classification_witness :
    ((isLiteralPattern [97] = true ↔
      ((∀ c ∈ ([97] : Str),
          c ∉ ([46, 43, 42, 63, 40, 41, 124, 91, 93, 123, 125, 94, 36] : List Nat)) ∧
        92 ∉ ([97] : Str))) ∧
    (isLiteralPattern [97] = true →
      CompileRules (fun _ => (none : Option Matcher)) [([110], [97])]
        = ⟨[], [([110], [97])]⟩) ∧
    (isLiteralPattern [97] = false →
        (fun _ => (none : Option Matcher)) [97] = none →
      CompileRules (fun _ => (none : Option Matcher)) [([110], [97])]
        = ⟨[], [([110], [97])]⟩) ∧
    (∀ reg, isLiteralPattern [97] = false →
        (fun _ => (none : Option Matcher)) [97] = some reg →
      CompileRules (fun _ => (none : Option Matcher)) [([110], [97])]
        = ⟨[(([110] : Str), reg)], []⟩)) :=
  literal_classification (fun _ => (none : Option Matcher)) [110] [97] (by decide)

/-- C4: a non-empty pattern that is not syntactically literal and fails to
compile is demoted to the literal partition under its raw text (and is not
a regex rule); `CompileRules`' per-rule loop is total, so one invalid
pattern never fails the compile; and the demoted rule subsequently matches
content exactly by substring containment of its raw pattern text, the
emitted match text being that raw text. -/
theorem invalid_pattern_demoted (compile : Str → Option Matcher)
    (rm : List (Str × Str)) (n p : Str)
    (hnd : (rm.map Prod.fst).Nodup) (hmem : (n, p) ∈ rm) (hne : p ≠ [])
    (hnl : isLiteralPattern p = false) (hc : compile p = none) :
    mapGet n (CompileRules compile rm).Literal = some p ∧
    mapGet n (CompileRules compile rm).Regex = none ∧
    ∀ source content,
      ((⟨source, n, p⟩ : ScanResult) ∈
          processLiteralRules source content (CompileRules compile rm).Literal
        ↔ p <:+: content) := by
  have hmain := compileRules_literal_get hnd hmem hne (Or.inr hc)
  refine ⟨hmain.1, hmain.2, ?_⟩
  intro source content
  constructor
  · intro hmm
    obtain ⟨np, hnp, heq, hinf⟩ := mem_processLiteralRules.mp hmm
    have hp2 : p = np.2 := congrArg ScanResult.Match heq
    rw [hp2]
    exact hinf
  · intro hinf
    exact mem_processLiteralRules.mpr
      ⟨(n, p), mem_of_mapGet_eq_some hmain.1, rfl, hinf⟩

theorem invalid_pattern_demoted_witness :
    (mapGet [110] (CompileRules (fun _ => none) [([110], [40])]).Literal
        = some [40] ∧
    mapGet [110] (CompileRules (fun _ => none) [([110], [40])]).Regex = none ∧
    ∀ source content,
      ((⟨source, [110], [40]⟩ : ScanResult) ∈
          processLiteralRules source content
            (CompileRules (fun _ => none) [([110], [40])]).Literal
        ↔ ([40] : Str) <:+: content)) :=
  invalid_pattern_demoted (fun _ => none) [([110], [40])] [110] [40]
    (by decide) (by decide) (by decide) (by decide) rfl

/-- C5: for a literal rule `(n, p)` of the compiled set, the literal phase
emits exactly one result for that rule when `p` occurs as a substring of
the content and zero otherwise, and any result it emits for that rule has
match text equal to `p` itself (not the in-context substring). -/
theorem literal_rule_matches (source content : Str)
    (literalRules : List (Str × Str)) (n p : Str)
    (hnd : (literalRules.map Prod.fst).Nodup) (hmem : (n, p) ∈ literalRules) :
    (processLiteralRules source content literalRules).countP (fun r => r.Rule == n)
        = (if p <:+: content then 1 else 0) ∧
    ∀ r ∈ processLiteralRules source content literalRules,
      r.Rule = n → r = ⟨source, n, p⟩ := by
  induction literalRules with
  | nil => simp at hmem
  | cons kv rest ih =>
    obtain ⟨k, q⟩ := kv
    simp only [List.map_cons, List.nodup_cons] at hnd
    obtain ⟨hk, hnd'⟩ := hnd
    rcases List.mem_cons.mp hmem with heq | hmem'
    · injection heq with h1 h2
      subst h1
      subst h2
      have hrest0 := countP_literal_notin source content rest n hk
      constructor
      · by_cases hinf : p <:+: content
        · have hexp : processLiteralRules source content ((n, p) :: rest)
              = ⟨source, n, p⟩ :: processLiteralRules source content rest := by
            simp [processLiteralRules, hinf]
          rw [hexp, List.countP_cons_of_pos _ _ (by simp), hrest0, if_pos hinf]
        · have hexp : processLiteralRules source content ((n, p) :: rest)
              = processLiteralRules source content rest := by
            simp [processLiteralRules, hinf]
          rw [hexp, hrest0, if_neg hinf]
      · intro r hr hrn
        obtain ⟨np, hnp, heq, hinf'⟩ := mem_processLiteralRules.mp hr
        rcases List.mem_cons.mp hnp with h' | h'
        · rw [heq, h']
        · exfalso
          subst heq
          exact hk (hrn ▸ List.mem_map.mpr ⟨np, h', rfl⟩)
    · have hkn : k ≠ n := by
        intro hkn
        subst hkn
        exact hk (List.mem_map.mpr ⟨(k, p), hmem', rfl⟩)
      obtain ⟨ihc, ihu⟩ := ih hnd' hmem'
      constructor
      · by_cases hinfq : q <:+: content
        · have hexp : processLiteralRules source content ((k, q) :: rest)
              = ⟨source, k, q⟩ :: processLiteralRules source content rest := by
            simp [processLiteralRules, hinfq]
          rw [hexp, List.countP_cons_of_neg _ _ (by simp [hkn]), ihc]
        · have hexp : processLiteralRules source content ((k, q) :: rest)
              = processLiteralRules source content rest := by
            simp [processLiteralRules, hinfq]
          rw [hexp, ihc]
      · intro r hr hrn
        obtain ⟨np, hnp, heq, hinf'⟩ := mem_processLiteralRules.mp hr
        rcases List.mem_cons.mp hnp with h' | h'
        · exfalso
          subst heq
          subst h'
          exact hkn hrn
        · exact ihu r (mem_processLiteralRules.mpr ⟨np, h', heq, hinf'⟩) hrn

theorem literal_rule_matches_witness :
    ((processLiteralRules [] [97, 98] [([110], [97])]).countP
        (fun r => r.Rule == [110])
      = (if ([97] : Str) <:+: [97, 98] then 1 else 0) ∧
    ∀ r ∈ processLiteralRules [] [97, 98] [([110], [97])],
      r.Rule = [110] → r = ⟨[], [110], [97]⟩) :=
  literal_rule_matches [] [97, 98] [([110], [97])] [110] [97]
    (by decide) (by decide)

/-- C8: an entry of the rule map whose pattern is the empty string is
skipped by compilation: it appears in neither partition, it is excluded
from both reported counts (the partition sizes sum to the number of
non-empty-pattern entries), and no output `processContent` can produce
contains a result carrying its rule name. -/
theorem empty_pattern_skipped (compile : Str → Option Matcher)
    (rm : List (Str × Str)) (n : Str)
    (hnd : (rm.map Prod.fst).Nodup) (hmem : (n, ([] : Str)) ∈ rm) :
    mapGet n (CompileRules compile rm).Literal = none ∧
    mapGet n (CompileRules compile rm).Regex = none ∧
    ((CompileRules compile rm).Regex.length
        + (CompileRules compile rm).Literal.length
      = rm.countP (fun e => !e.2.isEmpty)) ∧
    ∀ source content (u : Bool) (s : Strategy) (out : List ScanResult),
      ProcessContent source content (CompileRules compile rm) u s out →
        out.countP (fun r => r.Rule == n) = 0 := by
  obtain ⟨hlit, hreg⟩ := @compileRules_mapGet_of_empty compile rm n hnd hmem
  refine ⟨hlit, hreg, compileRules_counts compile rm, ?_⟩
  intro source content u s out h
  rw [List.countP_eq_zero]
  intro r hr
  simp only [beq_iff_eq]
  intro hrn
  rcases rule_name_of_mem_processContent h hr with hin | hin
  · exact (mapGet_eq_none_iff n _).mp hlit (hrn ▸ hin)
  · exact (mapGet_eq_none_iff n _).mp hreg (hrn ▸ hin)

theorem empty_pattern_skipped_witness :
    (mapGet [110] (CompileRules (fun _ => (none : Option Matcher))
        [([110], [])]).Literal = none ∧
    mapGet [110] (CompileRules (fun _ => (none : Option Matcher))
        [([110], [])]).Regex = none ∧
    ((CompileRules (fun _ => (none : Option Matcher)) [([110], [])]).Regex.length
        + (CompileRules (fun _ => (none : Option Matcher))
            [([110], [])]).Literal.length
      = ([(([110] : Str), ([] : Str))]).countP (fun e => !e.2.isEmpty)) ∧
    ∀ source content (u : Bool) (s : Strategy) (out : List ScanResult),
      ProcessContent source content
          (CompileRules (fun _ => (none : Option Matcher)) [([110], [])]) u s out →
        out.countP (fun r => r.Rule == [110]) = 0) :=
  empty_pattern_skipped (fun _ => (none : Option Matcher)) [([110], [])] [110]
    (by decide) (by decide)

/-- C3 counterexample: a run over an existing directory with one target
whose file read fails. A per-target error is printed (`readError` appears
in the diagnostics), the scan of the remaining targets completes, yet the
process exits with status 0 — not the non-zero completion status the claim
requires.  `processLocalFile`/`processURL` return nothing to their
schedulers, `ScanLocalDirectory` returns `nil` unconditionally once the
directory exists (`local.go` line 103), and `main` exits non-zero only
when the scan function's returned error is non-nil (`main.go` lines
112-114). -/
theorem per_target_error_exits_zero_cex :
    (ScanLocalDirectory true [⟨[102], none, true⟩]
        ⟨[], [([107], [107])]⟩).1 = [TargetError.readError] ∧
    localScanExitCode true [⟨[102], none, true⟩] ⟨[], [([107], [107])]⟩ = 0 :=
  ⟨rfl, rfl⟩

/-- C3 amended: per-target errors (unreadable file, failed request,
non-2xx status) and per-write errors are printed and swallowed; the run
still completes the full scan, but the completion status is 0 regardless
of such errors.  A non-zero status is produced exactly when the scan could
not start: the local directory does not exist, the HTTP client cannot be
built, or the URL list file cannot be read. -/
theorem per_target_errors_do_not_affect_exit (targets : List LocalTarget)
    (urls : List URLTarget) (cr : CompiledRules) :
    localScanExitCode true targets cr = 0 ∧
    localScanExitCode false targets cr = 1 ∧
    urlScanExitCode true (some urls) cr = 0 ∧
    urlScanExitCode false (some urls) cr = 1 ∧
    urlScanExitCode true none cr = 1 :=
  ⟨rfl, rfl, rfl, rfl, rfl⟩

/-- Each formatted line contains exactly one newline byte when the result's
fields contain none. -/
theorem count_newline_formatResult (r : ScanResult)
    (h1 : 10 ∉ r.Source) (h2 : 10 ∉ r.Rule) (h3 : 10 ∉ r.Match) :
    (formatResult r).count 10 = 1 := by
  simp [formatResult, List.count_append, List.count_cons,
    List.count_eq_zero.mpr h1, List.count_eq_zero.mpr h2,
    List.count_eq_zero.mpr h3]

theorem count_newline_flatMap (rs : List ScanResult)
    (h : ∀ r ∈ rs, 10 ∉ r.Source ∧ 10 ∉ r.Rule ∧ 10 ∉ r.Match) :
    (rs.flatMap formatResult).count 10 = rs.length := by
  induction rs with
  | nil => rfl
  | cons r rest ih =>
    simp only [List.flatMap_cons, List.count_append, List.length_cons]
    have hr := h r (by simp)
    rw [count_newline_formatResult r hr.1 hr.2.1 hr.2.2,
      ih (fun x hx => h x (by simp [hx]))]
    omega

/-- C9: called with an empty result sequence the writer leaves the file
state untouched (no file is created); with `n` results it appends exactly
the `n` formatted `[source] rule: match` lines (`n` newline-terminated
lines when the fields are newline-free); and a second call on the same
path appends its batch after the first, in call order, never truncating. -/
theorem write_results_behaviour (file : Option Str) (r1 r2 : List ScanResult)
    (h1 : r1 ≠ []) (h2 : r2 ≠ []) :
    WriteResultsToFile file [] = file ∧
    WriteResultsToFile file r1 = some (file.getD [] ++ r1.flatMap formatResult) ∧
    ((∀ r ∈ r1, 10 ∉ r.Source ∧ 10 ∉ r.Rule ∧ 10 ∉ r.Match) →
      (r1.flatMap formatResult).count 10 = r1.length) ∧
    WriteResultsToFile (WriteResultsToFile file r1) r2 =
      some (file.getD [] ++ r1.flatMap formatResult ++ r2.flatMap formatResult) := by
  have hl1 : r1.length ≠ 0 := fun hc => h1 (List.length_eq_zero.mp hc)
  have hl2 : r2.length ≠ 0 := fun hc => h2 (List.length_eq_zero.mp hc)
  refine ⟨by simp [WriteResultsToFile], ?_, count_newline_flatMap r1, ?_⟩
  · simp [WriteResultsToFile, hl1]
  · simp [WriteResultsToFile, hl1, hl2, List.append_assoc]

theorem write_results_behaviour_witness :
    (WriteResultsToFile none [] = none ∧
    WriteResultsToFile none [⟨[], [], [97]⟩]
      = some ((Option.getD none []) ++
          ([(⟨[], [], [97]⟩ : ScanResult)]).flatMap formatResult) ∧
    ((∀ r ∈ ([⟨[], [], [97]⟩] : List ScanResult),
        10 ∉ r.Source ∧ 10 ∉ r.Rule ∧ 10 ∉ r.Match) →
      (([⟨[], [], [97]⟩] : List ScanResult).flatMap formatResult).count 10
        = ([⟨[], [], [97]⟩] : List ScanResult).length) ∧
    WriteResultsToFile (WriteResultsToFile none [⟨[], [], [97]⟩]) [⟨[], [], [98]⟩]
      = some ((Option.getD none []) ++
          ([(⟨[], [], [97]⟩ : ScanResult)]).flatMap formatResult ++
          ([(⟨[], [], [98]⟩ : ScanResult)]).flatMap formatResult)) :=
  write_results_behaviour none [⟨[], [], [97]⟩] [⟨[], [], [98]⟩]
    (by decide) (by decide)

theorem allowedChar_iff (c : Char) :
    allowedChar c = true ↔
      (('a' ≤ c ∧ c ≤ 'z') ∨ ('A' ≤ c ∧ c ≤ 'Z') ∨ ('0' ≤ c ∧ c ≤ '9') ∨
        c = '_' ∨ c = '-' ∨ c = '.') := by
  simp [allowedChar, Bool.or_eq_true, Bool.and_eq_true, decide_eq_true_eq,
    and_assoc, or_assoc]

theorem allowed_of_mem_sanitizeMap {base : List Char} {c : Char}
    (h : c ∈ sanitizeMap base) : allowedChar c = true := by
  obtain ⟨r, _, hr⟩ := List.mem_map.mp h
  by_cases ha : allowedChar r
  · rw [← hr]
    simpa [ha] using ha
  · rw [← hr]
    simp only [ha, if_false, Bool.false_eq_true]
    decide

theorem mem_truncate200 {s : List Char} {c : Char} (h : c ∈ truncate200 s) :
    c ∈ s := by
  unfold truncate200 at h
  split at h
  · exact List.take_subset 200 s h
  · exact h

theorem mem_fixLeading {s : List Char} {c : Char} (h : c ∈ fixLeading s) :
    c ∈ s ∨ c ∈ (['f', 'i', 'l', 'e', '_'] : List Char) := by
  cases s with
  | nil => exact Or.inl h
  | cons a t =>
    simp only [fixLeading] at h
    by_cases hcond : (a = '.' || a = '_') = true
    · rw [if_pos hcond] at h
      simp only [List.mem_cons] at h
      rcases h with rfl | rfl | rfl | rfl | rfl | h
      · exact Or.inr (by simp)
      · exact Or.inr (by simp)
      · exact Or.inr (by simp)
      · exact Or.inr (by simp)
      · exact Or.inr (by simp)
      · exact Or.inl (List.mem_cons.mpr h)
    · rw [if_neg hcond] at h
      exact Or.inl h

theorem allowed_of_mem_sanitize {base : List Char} {c : Char}
    (h : c ∈ SanitizeFilename base) : allowedChar c = true := by
  unfold SanitizeFilename at h
  split at h
  · revert h
    have : ∀ x ∈ defaultFilename, allowedChar x = true := by decide
    exact this c
  · rcases mem_fixLeading h with h | h
    · exact allowed_of_mem_sanitizeMap (mem_truncate200 h)
    · revert h
      have : ∀ x ∈ (['f', 'i', 'l', 'e', '_'] : List Char),
          allowedChar x = true := by decide
      exact this c

theorem sanitize_ne_nil (base : List Char) : SanitizeFilename base ≠ [] := by
  unfold SanitizeFilename
  split
  · decide
  · assumption

theorem sanitize_head_ok (base : List Char) :
    ∀ c, (SanitizeFilename base).head? = some c → c ≠ '.' ∧ c ≠ '_' := by
  intro c hc
  unfold SanitizeFilename at hc
  split at hc
  · simp only [defaultFilename, List.head?_cons, Option.some.injEq] at hc
    subst hc
    decide
  · revert hc
    generalize truncate200 (sanitizeMap base) = s
    intro hc
    cases s with
    | nil => simp [fixLeading] at hc
    | cons a t =>
      simp only [fixLeading] at hc
      by_cases hcond : (a = '.' || a = '_') = true
      · rw [if_pos hcond] at hc
        simp only [List.head?_cons, Option.some.injEq] at hc
        subst hc
        decide
      · rw [if_neg hcond] at hc
        simp only [List.head?_cons, Option.some.injEq] at hc
        subst hc
        simpa [not_or] using hcond

theorem extAux_eq_nil_iff {rev : List Char} (h : '/' ∉ rev) :
    ∀ acc, (extAux rev acc = [] ↔ '.' ∉ rev) := by
  induction rev with
  | nil => intro acc; simp [extAux]
  | cons c rest ih =>
    intro acc
    simp only [List.mem_cons, not_or] at h
    obtain ⟨hc, hrest⟩ := h
    by_cases hdot : c = '.'
    · subst hdot
      simp [extAux]
    · have hslash : ¬(c = '/') := fun hh => hc hh.symm
      simp only [extAux, if_neg hslash, if_neg hdot]
      rw [ih hrest (c :: acc)]
      constructor
      · intro hn
        simp only [List.mem_cons, not_or]
        exact ⟨fun hh => hdot hh.symm, hn⟩
      · intro hn hmem
        exact hn (List.mem_cons_of_mem c hmem)

theorem filepathExt_eq_nil_iff {s : List Char} (h : '/' ∉ s) :
    filepathExt s = [] ↔ '.' ∉ s := by
  unfold filepathExt
  rw [extAux_eq_nil_iff (by simpa using h) []]
  simp

theorem slash_not_mem_sanitize (base : List Char) :
    '/' ∉ SanitizeFilename base := fun h =>
  absurd (allowed_of_mem_sanitize h) (by decide)

/-- C10: for every input, `SanitizeFilename` produces a non-empty name made
only of ASCII letters, digits, underscore, hyphen and dot, never starting
with a dot or an underscore; and `GetOutputFilePath` appends `".txt"`
exactly when the sanitized name has no file extension, i.e. contains no
dot (a sanitized name contains no path separator, so `filepath.Ext` is
empty iff the name is dot-free). -/
theorem sanitize_and_output_path (outputDir base : List Char) :
    SanitizeFilename base ≠ [] ∧
    (∀ c ∈ SanitizeFilename base,
      ('a' ≤ c ∧ c ≤ 'z') ∨ ('A' ≤ c ∧ c ≤ 'Z') ∨ ('0' ≤ c ∧ c ≤ '9') ∨
        c = '_' ∨ c = '-' ∨ c = '.') ∧
    (∀ c, (SanitizeFilename base).head? = some c → c ≠ '.' ∧ c ≠ '_') ∧
    (GetOutputFilePath outputDir base
        = outputDir ++ '/' :: (SanitizeFilename base ++ ['.', 't', 'x', 't'])
      ↔ '.' ∉ SanitizeFilename base) := by
  refine ⟨sanitize_ne_nil base, ?_, sanitize_head_ok base, ?_⟩
  · intro c hc
    exact (allowedChar_iff c).mp (allowed_of_mem_sanitize hc)
  · have hslash := slash_not_mem_sanitize base
    by_cases hext : filepathExt (SanitizeFilename base) = []
    · have hdot := (filepathExt_eq_nil_iff hslash).mp hext
      simp [GetOutputFilePath, hext, hdot]
    · have hdot : ¬('.' ∉ SanitizeFilename base) := fun hd =>
        hext ((filepathExt_eq_nil_iff hslash).mpr hd)
      refine iff_of_false ?_ hdot
      intro heq
      simp only [GetOutputFilePath, if_neg hext] at heq
      have h2 := List.append_cancel_left heq
      injection h2 with _ h3
      have h4 := congrArg List.length h3
      simp at h4
